import Mathlib

/-!
# Open-addressing hash table (`src/LearnC/write_a_hash_table/src/hash_table.c`)

A shallow embedding of the string-to-string hash table with double hashing,
tombstone deletion and load-factor driven resizing.

Modelling conventions.

* A C string is the list of its `char` values (`CStr`); `strcmp(a, b) == 0` is
  list equality.  `strdup` copies are the lists themselves.
* C `int`/`long` are unbounded `Int`; `/` and `%` are the truncating
  `Int.tdiv` and `Int.tmod` of C.  The table sizes that occur are far below
  `2^31`.  `(long)pow(p, e)` is the exact power `p ^ e`.
* A slot `ht_item*` is `Slot.null` (the `NULL` pointer written by `calloc`),
  `Slot.deleted` (the address of the static `HT_DELETED_ITEM = {NULL, NULL}`)
  or `Slot.item key value` (a heap item).
* `malloc`/`free` are not modelled, so `ht_del_item` and `ht_del_hash_table`
  have no counterpart.  What is modelled of undefined behaviour:
  reading `items[index]` outside the slot array (`Fault.out_of_bounds`) and
  `strcmp` on the `NULL` key of `HT_DELETED_ITEM` (`Fault.null_key`).
* `ht_hash_checked` is `ht_hash` with the ranges of `double` and `long`
  checked (`Fault.overflow`); where it returns, it returns the value of
  `ht_hash`.
* Loops that may run forever take a `fuel` argument; running out of it is
  `Fault.out_of_fuel`.  `ht_insert` and `ht_resize` call each other, so the same
  `fuel` also bounds that nesting.
* `hash_table.h` and `prime.c` are not part of the sources at hand: the three
  constants of the header are the fields of `Config`, and `next_prime` is
  modelled from the specification.
* Line 136 of the source compares `cur_item` with `HT_DELETED_ITEM` itself;
  it is read as the comparison with `&HT_DELETED_ITEM` of lines 26 and 181.
-/

namespace HashTable

/-- A C string: the `char` values before the terminating zero. -/
abbrev CStr := List Int

/-- Ways in which a call fails to return normally. -/
inductive Fault
  | out_of_fuel
  | out_of_bounds
  | null_key
  | overflow
  deriving DecidableEq, Repr

deriving instance DecidableEq for Except

/-- One cell of `ht->items`. -/
inductive Slot
  | null
  | deleted
  | item (key : CStr) (value : CStr)
  deriving DecidableEq, Repr

/-- The struct `ht_hash_table`. -/
structure ht_hash_table where
  base_size : Int
  size : Int
  count : Int
  items : List Slot
  deriving DecidableEq, Repr

/-- The constants of `hash_table.h`, which the functions below take as a parameter. -/
structure Config where
  HT_INITIAL_BASE_SIZE : Int
  HT_PRIME_1 : Int
  HT_PRIME_2 : Int
  deriving DecidableEq, Repr

/-- Modelled from the spec: values for the constants of `hash_table.h`
(absent), used in concrete runs: the floor 50, which gives the minimum capacity
53 named in the specification, and two distinct primes above 128. -/
def refConfig : Config :=
  { HT_INITIAL_BASE_SIZE := 50, HT_PRIME_1 := 151, HT_PRIME_2 := 163 }

/-! ## Primes (modelled from the specification) -/

/-- Modelled from the spec: the trial-division loop of the primality test of
`prime.c` (absent): no `d` with `i ≤ d`, `d * d ≤ x` divides `x`. -/
def is_prime_loop (x : Nat) : Nat → Nat → Bool
  | 0, _ => true
  | fuel + 1, i =>
    if x < i * i then true
    else if x % i = 0 then false
    else is_prime_loop x fuel (i + 1)

/-- Modelled from the spec: the primality test of `prime.c` (absent), trial
division up to the square root. -/
def is_prime (x : Nat) : Bool :=
  decide (2 ≤ x) && is_prime_loop x x 2

/-- Modelled from the spec: the upward search of `next_prime` in `prime.c`
(absent), testing `x`, `x + 1`, ... in turn. -/
def next_prime_loop : Nat → Nat → Nat
  | 0, x => x
  | fuel + 1, x => if is_prime x then x else next_prime_loop fuel (x + 1)

/-- Modelled from the spec: `next_prime` of `prime.c` (absent), the smallest
prime at or above `x`.  By Bertrand's postulate the search ends within
`x + 3` steps. -/
def next_prime (x : Int) : Int :=
  (next_prime_loop (x.toNat + 3) x.toNat : Nat)

/-! ## Hashing -/

/-- The `for` loop of `ht_hash`: `rest` are the characters from position `i` on. -/
def ht_hash_loop (prime_num hash_size : Int) (len_s : Nat) : List Int → Nat → Int → Int
  | [], _, hash => hash
  | c :: rest, i, hash =>
    ht_hash_loop prime_num hash_size len_s rest (i + 1)
      (Int.tmod (hash + prime_num ^ (len_s - (i + 1)) * c) hash_size)

/-- `ht_hash(s, prime_num, hash_size)`. -/
def ht_hash (s : CStr) (prime_num hash_size : Int) : Int :=
  ht_hash_loop prime_num hash_size s.length s 0 0

/-- `ht_get_hash(s, num_buckets, attempt)`. -/
def ht_get_hash (cfg : Config) (s : CStr) (num_buckets attempt : Int) : Int :=
  let hash_a := ht_hash s cfg.HT_PRIME_1 num_buckets
  let hash_b := ht_hash s cfg.HT_PRIME_2 num_buckets
  Int.tmod (hash_a + attempt * (hash_b + 1)) num_buckets

/-- The `for` loop of `ht_hash` with the ranges of the C types checked.  `pow`
returns a `double`, which holds every integer below `2^53` exactly; the
conversion `(long)` and the arithmetic on `long hash` are defined for values
below `2^63` in absolute value.  A power of `2^53` or more, or a sum outside
the range of `long`, is `Fault.overflow`. -/
def ht_hash_checked_loop (prime_num hash_size : Int) (len_s : Nat) :
    List Int → Nat → Int → Except Fault Int
  | [], _, hash => .ok hash
  | c :: rest, i, hash =>
    if 2 ^ 53 ≤ prime_num ^ (len_s - (i + 1)) ∨ prime_num ^ (len_s - (i + 1)) ≤ -(2 ^ 53) then
      .error .overflow
    else if 2 ^ 63 ≤ prime_num ^ (len_s - (i + 1)) * c
        ∨ prime_num ^ (len_s - (i + 1)) * c < -(2 ^ 63) then
      .error .overflow
    else if 2 ^ 63 ≤ hash + prime_num ^ (len_s - (i + 1)) * c
        ∨ hash + prime_num ^ (len_s - (i + 1)) * c < -(2 ^ 63) then
      .error .overflow
    else
      ht_hash_checked_loop prime_num hash_size len_s rest (i + 1)
        (Int.tmod (hash + prime_num ^ (len_s - (i + 1)) * c) hash_size)

/-- `ht_hash(s, prime_num, hash_size)` with the ranges of the C types checked. -/
def ht_hash_checked (s : CStr) (prime_num hash_size : Int) : Except Fault Int :=
  ht_hash_checked_loop prime_num hash_size s.length s 0 0

/-- The formula of the specification for the hash:
`(Σ_{i=0}^{len(s)-1} prime^(len(s)-1-i) * code(s[i])) mod m`. -/
def hash_formula (s : CStr) (prime_num hash_size : Int) : Int :=
  ((List.range s.length).map
    (fun i => prime_num ^ (s.length - 1 - i) * s.getD i 0)).sum % hash_size

/-! ## Table operations -/

/-- `ht_new_sized(base_size)`. -/
def ht_new_sized (base_size : Int) : ht_hash_table :=
  { base_size := base_size
    size := next_prime base_size
    count := 0
    items := List.replicate (next_prime base_size).toNat Slot.null }

/-- `ht_new()`. -/
def ht_new (cfg : Config) : ht_hash_table :=
  ht_new_sized cfg.HT_INITIAL_BASE_SIZE

/-- The read `ht->items[index]`. -/
def slot_at (ht : ht_hash_table) (index : Int) : Except Fault Slot :=
  if index < 0 then .error .out_of_bounds
  else
    match ht.items[index.toNat]? with
    | some s => .ok s
    | none => .error .out_of_bounds

/-- The write `ht->items[index] = s` (only used after a successful read of the
same index). -/
def set_slot (ht : ht_hash_table) (index : Int) (s : Slot) : ht_hash_table :=
  { ht with items := ht.items.set index.toNat s }

/-- The probe loop of `ht_insert` together with the two statements after it;
`attempt` is the attempt number of the slot under inspection. -/
def ht_insert_probe (cfg : Config) :
    Nat → ht_hash_table → CStr → CStr → Nat → Except Fault ht_hash_table
  | 0, _, _, _, _ => .error .out_of_fuel
  | fuel + 1, ht, key, value, attempt =>
    let index := ht_get_hash cfg key ht.size attempt
    match slot_at ht index with
    | .error e => .error e
    | .ok .null =>
      .ok { set_slot ht index (.item key value) with count := ht.count + 1 }
    | .ok .deleted =>
      .ok { set_slot ht index (.item key value) with count := ht.count + 1 }
    | .ok (.item k _) =>
      if k = key then .ok (set_slot ht index (.item key value))
      else ht_insert_probe cfg fuel ht key value (attempt + 1)

/-- The `for` loop of `ht_resize`, with the insertion routine as a parameter. -/
def ht_resize_loop (ins : ht_hash_table → CStr → CStr → Except Fault ht_hash_table) :
    List Slot → ht_hash_table → Except Fault ht_hash_table
  | [], new_ht => .ok new_ht
  | .item k v :: rest, new_ht =>
    match ins new_ht k v with
    | .error e => .error e
    | .ok new_ht1 => ht_resize_loop ins rest new_ht1
  | .null :: rest, new_ht => ht_resize_loop ins rest new_ht
  | .deleted :: rest, new_ht => ht_resize_loop ins rest new_ht

/-- The body of `ht_resize`, with the insertion routine as a parameter.  The
slot array has `ht->size` cells, so the loop runs over all of `items`. -/
def ht_resize_body (cfg : Config)
    (ins : ht_hash_table → CStr → CStr → Except Fault ht_hash_table)
    (ht : ht_hash_table) (base_size : Int) : Except Fault ht_hash_table :=
  if base_size < cfg.HT_INITIAL_BASE_SIZE then .ok ht
  else
    match ht_resize_loop ins ht.items (ht_new_sized base_size) with
    | .error e => .error e
    | .ok new_ht =>
      .ok { base_size := new_ht.base_size
            count := new_ht.count
            size := new_ht.size
            items := new_ht.items }

/-- `ht_insert(ht, key, value)`. -/
def ht_insert (cfg : Config) : Nat → ht_hash_table → CStr → CStr → Except Fault ht_hash_table
  | 0, _, _, _ => .error .out_of_fuel
  | fuel + 1, ht, key, value =>
    let load := Int.tdiv (ht.count * 100) ht.size
    match (if load > 70 then
             ht_resize_body cfg (fun t k v => ht_insert cfg fuel t k v) ht (ht.base_size * 2)
           else .ok ht) with
    | .error e => .error e
    | .ok ht1 => ht_insert_probe cfg (fuel + 1) ht1 key value 0

/-- `ht_resize(ht, base_size)`. -/
def ht_resize (cfg : Config) (fuel : Nat) (ht : ht_hash_table) (base_size : Int) :
    Except Fault ht_hash_table :=
  ht_resize_body cfg (fun t k v => ht_insert cfg fuel t k v) ht base_size

/-- `ht_resize_up(ht)`. -/
def ht_resize_up (cfg : Config) (fuel : Nat) (ht : ht_hash_table) : Except Fault ht_hash_table :=
  ht_resize cfg fuel ht (ht.base_size * 2)

/-- `ht_resize_down(ht)`. -/
def ht_resize_down (cfg : Config) (fuel : Nat) (ht : ht_hash_table) : Except Fault ht_hash_table :=
  ht_resize cfg fuel ht (Int.tdiv ht.base_size 2)

/-- The probe loop of `ht_search`. -/
def ht_search_probe (cfg : Config) :
    Nat → ht_hash_table → CStr → Nat → Except Fault (Option CStr)
  | 0, _, _, _ => .error .out_of_fuel
  | fuel + 1, ht, key, attempt =>
    match slot_at ht (ht_get_hash cfg key ht.size attempt) with
    | .error e => .error e
    | .ok .null => .ok none
    | .ok .deleted => .error .null_key
    | .ok (.item k v) =>
      if k = key then .ok (some v)
      else ht_search_probe cfg fuel ht key (attempt + 1)

/-- `ht_search(ht, key)`; `none` is the `NULL` result. -/
def ht_search (cfg : Config) (fuel : Nat) (ht : ht_hash_table) (key : CStr) :
    Except Fault (Option CStr) :=
  ht_search_probe cfg fuel ht key 0

/-- The probe loop of `ht_delete`. -/
def ht_delete_probe (cfg : Config) :
    Nat → ht_hash_table → CStr → Nat → Except Fault ht_hash_table
  | 0, _, _, _ => .error .out_of_fuel
  | fuel + 1, ht, key, attempt =>
    let index := ht_get_hash cfg key ht.size attempt
    match slot_at ht index with
    | .error e => .error e
    | .ok .null => .ok ht
    | .ok .deleted => ht_delete_probe cfg fuel ht key (attempt + 1)
    | .ok (.item k _) =>
      ht_delete_probe cfg fuel
        (if k = key then set_slot ht index .deleted else ht) key (attempt + 1)

/-- `ht_delete(ht, key)`. -/
def ht_delete (cfg : Config) (fuel : Nat) (ht : ht_hash_table) (key : CStr) :
    Except Fault ht_hash_table :=
  let load := Int.tdiv (ht.count * 100) ht.size
  match (if load < 10 then ht_resize_down cfg fuel ht else .ok ht) with
  | .error e => .error e
  | .ok ht1 =>
    match ht_delete_probe cfg fuel ht1 key 0 with
    | .error e => .error e
    | .ok ht2 => .ok { ht2 with count := ht2.count - 1 }

/-! ## Reachable states -/

/-- Tables obtained from `ht_new()` by calls of `ht_insert` and `ht_delete`
that return. -/
inductive Reachable (cfg : Config) : ht_hash_table → Prop
  | new : Reachable cfg (ht_new cfg)
  | insert {ht ht1 : ht_hash_table} {fuel : Nat} {key value : CStr} :
      Reachable cfg ht → ht_insert cfg fuel ht key value = .ok ht1 → Reachable cfg ht1
  | delete {ht ht1 : ht_hash_table} {fuel : Nat} {key : CStr} :
      Reachable cfg ht → ht_delete cfg fuel ht key = .ok ht1 → Reachable cfg ht1

/-- A call of the public interface that changes the table. -/
inductive Call
  | insert (key value : CStr)
  | delete (key : CStr)
  deriving DecidableEq, Repr

/-- Run a sequence of calls, each with the given fuel. -/
def run_calls (cfg : Config) (fuel : Nat) : List Call → ht_hash_table → Except Fault ht_hash_table
  | [], ht => .ok ht
  | .insert k v :: rest, ht =>
    match ht_insert cfg fuel ht k v with
    | .error e => .error e
    | .ok ht1 => run_calls cfg fuel rest ht1
  | .delete k :: rest, ht =>
    match ht_delete cfg fuel ht k with
    | .error e => .error e
    | .ok ht1 => run_calls cfg fuel rest ht1

/-- Tables produced by `ht_new_sized` (so also by `ht_new`) and by calls of
`ht_resize`, `ht_insert` and `ht_delete` that return. -/
inductive Produced (cfg : Config) : ht_hash_table → Prop
  | new_sized (base_size : Int) : Produced cfg (ht_new_sized base_size)
  | resize {ht ht1 : ht_hash_table} {fuel : Nat} {base_size : Int} :
      Produced cfg ht → ht_resize cfg fuel ht base_size = .ok ht1 → Produced cfg ht1
  | insert {ht ht1 : ht_hash_table} {fuel : Nat} {key value : CStr} :
      Produced cfg ht → ht_insert cfg fuel ht key value = .ok ht1 → Produced cfg ht1
  | delete {ht ht1 : ht_hash_table} {fuel : Nat} {key : CStr} :
      Produced cfg ht → ht_delete cfg fuel ht key = .ok ht1 → Produced cfg ht1

/-- The number of slots holding an item. -/
def occupied : List Slot → Nat
  | [] => 0
  | .item _ _ :: rest => occupied rest + 1
  | .null :: rest => occupied rest
  | .deleted :: rest => occupied rest

/-- The number of slots that are not `NULL` (items and tombstones). -/
def non_empty : List Slot → Nat
  | [] => 0
  | .null :: rest => non_empty rest
  | .deleted :: rest => non_empty rest + 1
  | .item _ _ :: rest => non_empty rest + 1

/-- The number of tombstones. -/
def tombstones : List Slot → Nat
  | [] => 0
  | .deleted :: rest => tombstones rest + 1
  | .null :: rest => tombstones rest
  | .item _ _ :: rest => tombstones rest

/-- The contribution of one slot to `occupied`. -/
def item_weight : Slot → Nat
  | .item _ _ => 1
  | .null => 0
  | .deleted => 0

/-- The bookkeeping that insertions keep: the capacity is the prime above the
base size, the base size is at or above the floor, and `count` is the number
of slots holding an item. -/
def InsertInv (cfg : Config) (ht : ht_hash_table) : Prop :=
  ht.size = next_prime ht.base_size ∧ cfg.HT_INITIAL_BASE_SIZE ≤ ht.base_size ∧
    ht.count = (occupied ht.items : Int)

/-- The calls `ht_insert(c, c)` for one-character keys `c`. -/
def insert_letters (cs : List Int) : List Call :=
  cs.map (fun c => Call.insert [c] [c])

/-- The 38 letters `A`..`Z`, `a`..`h`, `j`..`m`: as one-character keys they
have pairwise distinct first slots in a table of 53 slots. -/
def letters38 : List Int :=
  [65, 66, 67, 68, 69, 70, 71, 72, 73, 74, 75, 76, 77, 78, 79, 80, 81, 82, 83, 84, 85, 86, 87,
   88, 89, 90, 97, 98, 99, 100, 101, 102, 103, 104, 106, 107, 108, 109]

/-- The slots at which the loop of `ht_insert` stops for `key`: `NULL`, the
tombstone, or an item holding that key. -/
def stops_insert (key : CStr) : Slot → Bool
  | .null => true
  | .deleted => true
  | .item k _ => decide (k = key)

/-- The 53-slot table of `refConfig` with the given `count` and the listed
slots written, every other slot being `NULL`. -/
def table53 (count : Int) (slots : List (Nat × Slot)) : ht_hash_table :=
  { base_size := 50
    size := 53
    count := count
    items := slots.foldl (fun l p => l.set p.1 p.2) (List.replicate 53 Slot.null) }

/-- The table after `ht_insert("4", "x")` on `ht_new()`. -/
def stall_table : ht_hash_table := table53 1 [(52, Slot.item [52] [120])]

/-! ## Slot reads and writes -/

theorem slot_at_ok_iff (ht : ht_hash_table) (index : Int) (s : Slot) :
    slot_at ht index = .ok s ↔ 0 ≤ index ∧ ht.items[index.toNat]? = some s := by
  unfold slot_at
  by_cases h : index < 0
  · simp [h]
  · simp only [h, if_false]
    cases hg : ht.items[index.toNat]? with
    | none => simp
    | some x => simp; intro _; omega

theorem slot_at_set_slot_same {ht : ht_hash_table} {index : Int} {s0 : Slot} (s : Slot)
    (h : slot_at ht index = .ok s0) : slot_at (set_slot ht index s) index = .ok s := by
  rw [slot_at_ok_iff] at h ⊢
  refine ⟨h.1, ?_⟩
  have hlt : index.toNat < ht.items.length := by
    rcases List.getElem?_eq_some.1 h.2 with ⟨hlt, _⟩
    exact hlt
  simp [set_slot, List.getElem?_set_self, hlt]

theorem slot_at_set_slot_other {ht : ht_hash_table} {index j : Int} {s0 s1 : Slot} (s : Slot)
    (h : slot_at ht index = .ok s0) (hj : slot_at ht j = .ok s1) (hne : s0 ≠ s1) :
    slot_at (set_slot ht index s) j = .ok s1 := by
  rw [slot_at_ok_iff] at h hj ⊢
  refine ⟨hj.1, ?_⟩
  have hij : index.toNat ≠ j.toNat := by
    intro heq
    rw [heq, hj.2] at h
    exact hne (Option.some.inj h.2).symm
  simp [set_slot, List.getElem?_set_ne hij, hj.2]

/-! ## The probe loop of `ht_insert` -/

/-- One round of the insert loop, as a case split on the inspected slot. -/
theorem ht_insert_probe_succ (cfg : Config) (fuel : Nat) (ht : ht_hash_table)
    (key value : CStr) (attempt : Nat) :
    ht_insert_probe cfg (fuel + 1) ht key value attempt =
      match slot_at ht (ht_get_hash cfg key ht.size attempt) with
      | .error e => .error e
      | .ok .null =>
        .ok { set_slot ht (ht_get_hash cfg key ht.size attempt) (.item key value) with
              count := ht.count + 1 }
      | .ok .deleted =>
        .ok { set_slot ht (ht_get_hash cfg key ht.size attempt) (.item key value) with
              count := ht.count + 1 }
      | .ok (.item k _) =>
        if k = key then .ok (set_slot ht (ht_get_hash cfg key ht.size attempt) (.item key value))
        else ht_insert_probe cfg fuel ht key value (attempt + 1) := rfl

/-- The insert loop keeps `size` and `base_size`, and every slot holding another key. -/
theorem ht_insert_probe_frame (cfg : Config) (key value : CStr) :
    ∀ (fuel : Nat) (ht ht1 : ht_hash_table) (attempt : Nat),
      ht_insert_probe cfg fuel ht key value attempt = .ok ht1 →
      ht1.size = ht.size ∧ ht1.base_size = ht.base_size ∧
        ∀ (j : Int) (k v : CStr), k ≠ key → slot_at ht j = .ok (.item k v) →
          slot_at ht1 j = .ok (.item k v) := by
  intro fuel
  induction fuel with
  | zero => intro ht ht1 attempt h; simp [ht_insert_probe] at h
  | succ fuel ih =>
    intro ht ht1 attempt h
    rw [ht_insert_probe_succ] at h
    generalize ht_get_hash cfg key ht.size attempt = index at h
    cases hs : slot_at ht index with
    | error e => simp [hs] at h
    | ok s =>
      cases s with
      | null =>
        simp only [hs] at h
        cases h
        refine ⟨rfl, rfl, ?_⟩
        intro j k v _ hj
        exact slot_at_set_slot_other _ hs hj (by simp)
      | deleted =>
        simp only [hs] at h
        cases h
        refine ⟨rfl, rfl, ?_⟩
        intro j k v _ hj
        exact slot_at_set_slot_other _ hs hj (by simp)
      | item k0 v0 =>
        simp only [hs] at h
        by_cases hk : k0 = key
        · simp only [hk, if_true] at h
          cases h
          refine ⟨rfl, rfl, ?_⟩
          intro j k v hne hj
          refine slot_at_set_slot_other _ hs hj ?_
          intro heq
          cases heq
          exact hne hk
        · simp only [hk, if_false] at h
          exact ih ht ht1 (attempt + 1) h

/-- After the insert loop returns, the search loop started at the same attempt
finds the inserted value. -/
theorem ht_insert_probe_search (cfg : Config) (key value : CStr) :
    ∀ (fuel : Nat) (ht ht1 : ht_hash_table) (attempt : Nat),
      ht_insert_probe cfg fuel ht key value attempt = .ok ht1 →
      ht_search_probe cfg fuel ht1 key attempt = .ok (some value) := by
  intro fuel
  induction fuel with
  | zero => intro ht ht1 attempt h; simp [ht_insert_probe] at h
  | succ fuel ih =>
    intro ht ht1 attempt h
    have hfr := ht_insert_probe_frame cfg key value (fuel + 1) ht ht1 attempt h
    rw [ht_insert_probe_succ] at h
    unfold ht_search_probe
    rw [hfr.1]
    generalize ht_get_hash cfg key ht.size attempt = index at h ⊢
    cases hs : slot_at ht index with
    | error e => simp [hs] at h
    | ok s =>
      cases s with
      | null =>
        simp only [hs] at h
        cases h
        have := slot_at_set_slot_same (Slot.item key value) hs
        simp [slot_at, set_slot] at this ⊢
        simp [this]
      | deleted =>
        simp only [hs] at h
        cases h
        have := slot_at_set_slot_same (Slot.item key value) hs
        simp [slot_at, set_slot] at this ⊢
        simp [this]
      | item k0 v0 =>
        simp only [hs] at h
        by_cases hk : k0 = key
        · simp only [hk, if_true] at h
          cases h
          rw [slot_at_set_slot_same (Slot.item key value) hs]
          simp
        · simp only [hk, if_false] at h
          rw [hfr.2.2 index k0 v0 hk hs]
          simp only [hk, if_false]
          exact ih ht ht1 (attempt + 1) h

/-! ## Runs of calls and concrete tables -/

theorem reachable_run_calls (cfg : Config) (fuel : Nat) :
    ∀ (calls : List Call) (ht ht1 : ht_hash_table),
      Reachable cfg ht → run_calls cfg fuel calls ht = .ok ht1 → Reachable cfg ht1 := by
  intro calls
  induction calls with
  | nil =>
    intro ht ht1 hr h
    simp only [run_calls] at h
    cases h
    exact hr
  | cons c rest ih =>
    intro ht ht1 hr h
    cases c with
    | insert k v =>
      simp only [run_calls] at h
      cases hi : ht_insert cfg fuel ht k v with
      | error e => simp [hi] at h
      | ok ht2 =>
        simp only [hi] at h
        exact ih ht2 ht1 (Reachable.insert hr hi) h
    | delete k =>
      simp only [run_calls] at h
      cases hd : ht_delete cfg fuel ht k with
      | error e => simp [hd] at h
      | ok ht2 =>
        simp only [hd] at h
        exact ih ht2 ht1 (Reachable.delete hr hd) h

/-! ## Round trip (C1) -/

/-- C1: round trip.  For every table reachable from `ht_new()` by inserts and
deletes (tombstones included), every key and every value: whenever
`ht_insert(t, k, v)` returns, `ht_search(t, k)` afterwards returns `v`. -/
theorem insert_then_search (cfg : Config) (ht : ht_hash_table) (_hr : Reachable cfg ht)
    (fuel : Nat) (key value : CStr) (ht1 : ht_hash_table)
    (h : ht_insert cfg fuel ht key value = .ok ht1) :
    ht_search cfg fuel ht1 key = .ok (some value) := by
  cases fuel with
  | zero => simp [ht_insert] at h
  | succ fuel =>
    unfold ht_insert at h
    simp only at h
    split at h
    · simp at h
    · exact ht_insert_probe_search cfg key value (fuel + 1) _ ht1 0 h

/-- Witness for C1: the key `"A"` is inserted and deleted, which leaves a
tombstone in its slot 12; inserting `"A"` again returns and the new value is found. -/
theorem insert_then_search_witness :
    Reachable refConfig (table53 0 [(12, Slot.deleted)]) ∧
      ht_insert refConfig 2 (table53 0 [(12, Slot.deleted)]) [65] [121]
        = .ok (table53 1 [(12, Slot.item [65] [121])]) ∧
      ht_search refConfig 2 (table53 1 [(12, Slot.item [65] [121])]) [65] = .ok (some [121]) :=
  have hr : Reachable refConfig (table53 0 [(12, Slot.deleted)]) :=
    reachable_run_calls refConfig 2 [.insert [65] [120], .delete [65]] _ _ Reachable.new
      (by decide)
  ⟨hr, by decide,
    insert_then_search refConfig (table53 0 [(12, Slot.deleted)]) hr 2 [65] [121]
      (table53 1 [(12, Slot.item [65] [121])]) (by decide)⟩

/-! ## A probe sequence that stays on one slot (C2)

For a one-character key `[c]` both hashes are `c % 53`, whatever the two primes
are.  The keys `"4"` (52) and `"i"` (105) both hash to 52, so their step
`hash_b + 1 = 53` is zero modulo the table size and every attempt inspects
slot 52. -/

theorem stall_index (attempt : Nat) : ht_get_hash refConfig [105] 53 attempt = 52 := by
  have ha : ht_hash [105] refConfig.HT_PRIME_1 53 = 52 := by decide
  have hb : ht_hash [105] refConfig.HT_PRIME_2 53 = 52 := by decide
  simp only [ht_get_hash, ha, hb]
  rw [Int.tmod_eq_emod (by positivity) (by decide)]
  omega

theorem stall_insert_probe (value : CStr) :
    ∀ (fuel attempt : Nat),
      ht_insert_probe refConfig fuel stall_table [105] value attempt = .error .out_of_fuel := by
  intro fuel
  induction fuel with
  | zero => intro attempt; rfl
  | succ fuel ih =>
    intro attempt
    rw [ht_insert_probe_succ]
    have hsz : stall_table.size = 53 := rfl
    have hs : slot_at stall_table 52 = .ok (Slot.item [52] [120]) := by decide
    rw [hsz, stall_index, hs]
    simp only
    rw [if_neg (by decide)]
    exact ih (attempt + 1)

/-- The stalled probe sequence in `ht_insert`: in the table reached by
`ht_insert("4", "x")` from `ht_new()` (one entry in 53 slots, so `count < size`
and 52 slots are `NULL`), the probe loop of `ht_insert("i", "y")` does not
terminate: for every amount of fuel it is still running. -/
theorem insert_with_zero_step_does_not_terminate :
    Reachable refConfig stall_table ∧ stall_table.count < stall_table.size ∧
      ∀ fuel : Nat, ht_insert refConfig fuel stall_table [105] [121] = .error .out_of_fuel := by
  refine ⟨reachable_run_calls refConfig 1 [.insert [52] [120]] _ _ Reachable.new (by decide),
    by decide, ?_⟩
  intro fuel
  cases fuel with
  | zero => rfl
  | succ fuel =>
    unfold ht_insert
    have hload : ¬ Int.tdiv (stall_table.count * 100) stall_table.size > 70 := by decide
    simp only [hload, if_false]
    exact stall_insert_probe [121] (fuel + 1) 0

/-! ## Tombstones and `ht_search` (C3, C4) -/

/-- C3 (the code at the failing input): the scenario of the specification.
After `ht_insert("a1", "b1")` and `ht_insert("a2", "b2")` the search for `"a1"`
returns `"b1"`; after `ht_delete("a1")` slot 15 holds the tombstone, and the
search for `"a1"` compares the `NULL` key of the tombstone instead of
returning `NULL`. -/
theorem search_after_delete_reads_tombstone :
    run_calls refConfig 2 [.insert [97, 49] [98, 49], .insert [97, 50] [98, 50]] (ht_new refConfig)
        = .ok (table53 2 [(15, Slot.item [97, 49] [98, 49]), (16, Slot.item [97, 50] [98, 50])]) ∧
      ht_search refConfig 2
          (table53 2 [(15, Slot.item [97, 49] [98, 49]), (16, Slot.item [97, 50] [98, 50])])
          [97, 49] = .ok (some [98, 49]) ∧
      ht_delete refConfig 2
          (table53 2 [(15, Slot.item [97, 49] [98, 49]), (16, Slot.item [97, 50] [98, 50])])
          [97, 49] = .ok (table53 1 [(15, Slot.deleted), (16, Slot.item [97, 50] [98, 50])]) ∧
      ∀ fuel : Nat,
        ht_search refConfig (fuel + 1)
          (table53 1 [(15, Slot.deleted), (16, Slot.item [97, 50] [98, 50])]) [97, 49]
          = .error .null_key :=
  ⟨by decide, by decide, by decide, fun _ => rfl⟩

/-- C4 (the code at the failing input): the keys `"A"` and `"v"` both hash to
slot 12, so `"v"` is stored in slot 25, the second slot of its probe sequence.
The search for `"v"` returns `"y"` before `ht_delete("A")`; after it, slot 12
is a tombstone on the probe path of `"v"` and the search compares its `NULL`
key instead of returning `"y"`. -/
theorem search_of_other_key_after_delete_reads_tombstone :
    run_calls refConfig 2 [.insert [65] [120], .insert [118] [121]] (ht_new refConfig)
        = .ok (table53 2 [(12, Slot.item [65] [120]), (25, Slot.item [118] [121])]) ∧
      ht_search refConfig 2 (table53 2 [(12, Slot.item [65] [120]), (25, Slot.item [118] [121])])
          [118] = .ok (some [121]) ∧
      ht_delete refConfig 3 (table53 2 [(12, Slot.item [65] [120]), (25, Slot.item [118] [121])])
          [65] = .ok (table53 1 [(12, Slot.deleted), (25, Slot.item [118] [121])]) ∧
      ∀ fuel : Nat,
        ht_search refConfig (fuel + 1)
          (table53 1 [(12, Slot.deleted), (25, Slot.item [118] [121])]) [118]
          = .error .null_key :=
  ⟨by decide, by decide, by decide, fun _ => rfl⟩

/-! ## Reinsertion into a tombstone (C7) -/

/-- C7 (the code at the failing input): `"v"` sits in slot 25 behind `"A"` in
slot 12; `ht_delete("A")` turns slot 12 into a tombstone, and `ht_insert("v", "z")`
stops at that tombstone and stores a second item with key `"v"` there, so the
reachable table holds the key `"v"` in the two slots 12 and 25.  The search
returns the new value `"z"`; after a resize, which re-inserts slot 12 and then
slot 25, it returns the old value `"y"`. -/
theorem reinsert_duplicates_key :
    Reachable refConfig
        (table53 2 [(12, Slot.item [118] [122]), (25, Slot.item [118] [121])]) ∧
      slot_at (table53 2 [(12, Slot.item [118] [122]), (25, Slot.item [118] [121])]) 12
        = .ok (Slot.item [118] [122]) ∧
      slot_at (table53 2 [(12, Slot.item [118] [122]), (25, Slot.item [118] [121])]) 25
        = .ok (Slot.item [118] [121]) ∧
      ht_search refConfig 2
          (table53 2 [(12, Slot.item [118] [122]), (25, Slot.item [118] [121])]) [118]
        = .ok (some [122]) ∧
      ∃ ht1,
        ht_resize refConfig 2
            (table53 2 [(12, Slot.item [118] [122]), (25, Slot.item [118] [121])]) 100
          = .ok ht1 ∧
        ht_search refConfig 2 ht1 [118] = .ok (some [121]) :=
  ⟨reachable_run_calls refConfig 3
      [.insert [65] [120], .insert [118] [121], .delete [65], .insert [118] [122]] _ _
      Reachable.new (by decide),
    by decide, by decide, by decide, _, rfl, rfl⟩

/-! ## `next_prime` returns the smallest prime at or above its argument -/

theorem is_prime_loop_eq_true (x : Nat) :
    ∀ (fuel i : Nat), 0 < i →
      (is_prime_loop x fuel i = true ↔
        ∀ d, i ≤ d → d < i + fuel → d * d ≤ x → ¬ d ∣ x) := by
  intro fuel
  induction fuel with
  | zero =>
    intro i _
    simp only [is_prime_loop, true_iff]
    intro d h1 h2
    omega
  | succ fuel ih =>
    intro i hi
    unfold is_prime_loop
    by_cases h1 : x < i * i
    · simp only [h1, if_true, true_iff]
      intro d hd _ hdx
      have : i * i ≤ d * d := Nat.mul_le_mul hd hd
      omega
    · simp only [h1, if_false]
      by_cases h2 : x % i = 0
      · simp only [h2, if_true]
        constructor
        · intro h; cases h
        · intro h
          exact absurd (Nat.dvd_of_mod_eq_zero h2) (h i (le_refl i) (by omega) (by omega))
      · simp only [h2, if_false]
        rw [ih (i + 1) (by omega)]
        constructor
        · intro h d hd1 hd2 hdx
          by_cases hdi : d = i
          · subst hdi
            intro hdvd
            exact h2 (Nat.mod_eq_zero_of_dvd hdvd)
          · exact h d (by omega) (by omega) hdx
        · intro h d hd1 hd2 hdx
          exact h d (by omega) (by omega) hdx

theorem is_prime_eq_true (x : Nat) : is_prime x = true ↔ Nat.Prime x := by
  unfold is_prime
  rw [Bool.and_eq_true, decide_eq_true_iff, is_prime_loop_eq_true x x 2 (by decide),
    Nat.prime_def_le_sqrt]
  constructor
  · rintro ⟨h2, h⟩
    refine ⟨h2, fun m hm hsq => ?_⟩
    have hmm : m * m ≤ x := Nat.le_sqrt.1 hsq
    have hle : m ≤ m * m := Nat.le_mul_self m
    exact h m hm (by omega) hmm
  · rintro ⟨h2, h⟩
    exact ⟨h2, fun d hd _ hdx => h d hd (Nat.le_sqrt.2 hdx)⟩

theorem next_prime_loop_spec :
    ∀ (fuel x : Nat), (∃ p, Nat.Prime p ∧ x ≤ p ∧ p < x + fuel) →
      Nat.Prime (next_prime_loop fuel x) ∧ x ≤ next_prime_loop fuel x ∧
        ∀ q, Nat.Prime q → x ≤ q → next_prime_loop fuel x ≤ q := by
  intro fuel
  induction fuel with
  | zero =>
    rintro x ⟨p, _, h1, h2⟩
    omega
  | succ fuel ih =>
    rintro x ⟨p, hp, h1, h2⟩
    unfold next_prime_loop
    by_cases hx : is_prime x = true
    · simp only [hx, if_true]
      exact ⟨(is_prime_eq_true x).1 hx, le_refl x, fun q _ hq => hq⟩
    · rw [if_neg hx]
      have hnp : ¬ Nat.Prime x := fun h => hx ((is_prime_eq_true x).2 h)
      have hne : p ≠ x := fun h => hnp (h ▸ hp)
      obtain ⟨r1, r2, r3⟩ := ih (x + 1) ⟨p, hp, by omega, by omega⟩
      refine ⟨r1, by omega, fun q hq hxq => ?_⟩
      have hqx : q ≠ x := fun h => hnp (h ▸ hq)
      exact r3 q hq (by omega)

/-- The search range of `next_prime` contains a prime (Bertrand's postulate). -/
theorem exists_prime_in_range (n : Nat) : ∃ p, Nat.Prime p ∧ n ≤ p ∧ p < n + (n + 3) := by
  by_cases h : n ≤ 2
  · refine ⟨2, Nat.prime_two, h, ?_⟩
    omega
  · obtain ⟨p, hp, h1, h2⟩ := Nat.exists_prime_lt_and_le_two_mul (n - 1) (by omega)
    refine ⟨p, hp, ?_, ?_⟩ <;> omega

/-- `next_prime x` is a prime, at least `x`, and no prime lies in between. -/
theorem next_prime_spec (x : Int) :
    Nat.Prime (next_prime x).toNat ∧ 0 ≤ next_prime x ∧ x ≤ next_prime x ∧
      ∀ q : Nat, Nat.Prime q → x ≤ (q : Int) → next_prime x ≤ (q : Int) := by
  obtain ⟨r1, r2, r3⟩ :=
    next_prime_loop_spec (x.toNat + 3) x.toNat (exists_prime_in_range x.toNat)
  unfold next_prime
  refine ⟨by simpa using r1, by positivity, by omega, fun q hq hxq => ?_⟩
  have : x.toNat ≤ q := by omega
  have := r3 q hq this
  omega

theorem next_prime_mono {a b : Int} (h : a ≤ b) : next_prime a ≤ next_prime b := by
  obtain ⟨p1, p2, p3, _⟩ := next_prime_spec b
  have := (next_prime_spec a).2.2.2 (next_prime b).toNat p1 (by omega)
  omega

theorem ht_insert_probe_length (cfg : Config) (key value : CStr) :
    ∀ (fuel : Nat) (ht ht1 : ht_hash_table) (attempt : Nat),
      ht_insert_probe cfg fuel ht key value attempt = .ok ht1 →
      ht1.items.length = ht.items.length := by
  intro fuel
  induction fuel with
  | zero => intro ht ht1 attempt h; simp [ht_insert_probe] at h
  | succ fuel ih =>
    intro ht ht1 attempt h
    rw [ht_insert_probe_succ] at h
    generalize ht_get_hash cfg key ht.size attempt = index at h
    cases hs : slot_at ht index with
    | error e => simp [hs] at h
    | ok s =>
      cases s with
      | null =>
        simp only [hs] at h
        cases h
        simp [set_slot]
      | deleted =>
        simp only [hs] at h
        cases h
        simp [set_slot]
      | item k0 v0 =>
        simp only [hs] at h
        by_cases hk : k0 = key
        · simp only [hk, if_true] at h
          cases h
          simp [set_slot]
        · simp only [hk, if_false] at h
          exact ih ht ht1 (attempt + 1) h

theorem ht_delete_probe_length (cfg : Config) (key : CStr) :
    ∀ (fuel : Nat) (ht ht1 : ht_hash_table) (attempt : Nat),
      ht_delete_probe cfg fuel ht key attempt = .ok ht1 →
      ht1.items.length = ht.items.length := by
  intro fuel
  induction fuel with
  | zero => intro ht ht1 attempt h; simp [ht_delete_probe] at h
  | succ fuel ih =>
    intro ht ht1 attempt h
    unfold ht_delete_probe at h
    simp only at h
    generalize ht_get_hash cfg key ht.size attempt = index at h
    cases hs : slot_at ht index with
    | error e => simp [hs] at h
    | ok s =>
      cases s with
      | null =>
        simp only [hs] at h
        cases h
        rfl
      | deleted =>
        simp only [hs] at h
        exact ih ht ht1 (attempt + 1) h
      | item k0 v0 =>
        simp only [hs] at h
        have := ih _ ht1 (attempt + 1) h
        by_cases hk : k0 = key
        · simpa [hk, set_slot] using this
        · simpa [hk] using this

/-! ## Properties kept by every operation -/

theorem ht_resize_loop_preserves
    (ins : ht_hash_table → CStr → CStr → Except Fault ht_hash_table)
    (P : ht_hash_table → Prop)
    (hins : ∀ ht k v ht1, P ht → ins ht k v = .ok ht1 → P ht1) :
    ∀ (items : List Slot) (ht ht1 : ht_hash_table),
      P ht → ht_resize_loop ins items ht = .ok ht1 → P ht1 := by
  intro items
  induction items with
  | nil =>
    intro ht ht1 hp h
    simp only [ht_resize_loop] at h
    cases h
    exact hp
  | cons s rest ih =>
    intro ht ht1 hp h
    cases s with
    | null => exact ih ht ht1 hp (by simpa only [ht_resize_loop] using h)
    | deleted => exact ih ht ht1 hp (by simpa only [ht_resize_loop] using h)
    | item k v =>
      simp only [ht_resize_loop] at h
      cases hi : ins ht k v with
      | error e => simp [hi] at h
      | ok ht2 =>
        simp only [hi] at h
        exact ih ht2 ht1 (hins ht k v ht2 hp hi) h

/-- What `ht_resize_body` returns: the table itself below the floor, otherwise
the table built by the loop. -/
theorem ht_resize_body_ok (cfg : Config)
    (ins : ht_hash_table → CStr → CStr → Except Fault ht_hash_table)
    (ht ht1 : ht_hash_table) (base_size : Int)
    (h : ht_resize_body cfg ins ht base_size = .ok ht1) :
    (base_size < cfg.HT_INITIAL_BASE_SIZE ∧ ht1 = ht) ∨
      (cfg.HT_INITIAL_BASE_SIZE ≤ base_size ∧
        ht_resize_loop ins ht.items (ht_new_sized base_size) = .ok ht1) := by
  unfold ht_resize_body at h
  by_cases hb : base_size < cfg.HT_INITIAL_BASE_SIZE
  · simp only [hb, if_true] at h
    cases h
    exact Or.inl ⟨hb, rfl⟩
  · simp only [hb, if_false] at h
    cases hl : ht_resize_loop ins ht.items (ht_new_sized base_size) with
    | error e => simp [hl] at h
    | ok new_ht =>
      simp only [hl] at h
      cases h
      exact Or.inr ⟨by omega, rfl⟩

/-- One call of `ht_insert` with fuel left: the load check, then the probe loop. -/
theorem ht_insert_succ (cfg : Config) (fuel : Nat) (ht : ht_hash_table) (key value : CStr) :
    ht_insert cfg (fuel + 1) ht key value =
      match (if Int.tdiv (ht.count * 100) ht.size > 70 then ht_resize_up cfg fuel ht
             else .ok ht) with
      | .error e => .error e
      | .ok ht1 => ht_insert_probe cfg (fuel + 1) ht1 key value 0 := rfl

/-- A property that holds of every fresh table at or above the floor and is
kept by the probe loop of `ht_insert` is kept by `ht_insert`. -/
theorem ht_insert_preserves (cfg : Config) (P : ht_hash_table → Prop)
    (hnew : ∀ b, cfg.HT_INITIAL_BASE_SIZE ≤ b → P (ht_new_sized b))
    (hprobe : ∀ fuel ht key value attempt ht1, P ht →
      ht_insert_probe cfg fuel ht key value attempt = .ok ht1 → P ht1) :
    ∀ (fuel : Nat) (ht : ht_hash_table) (key value : CStr) (ht1 : ht_hash_table),
      P ht → ht_insert cfg fuel ht key value = .ok ht1 → P ht1 := by
  intro fuel
  induction fuel with
  | zero => intro ht key value ht1 _ h; simp [ht_insert] at h
  | succ fuel ih =>
    intro ht key value ht1 hp h
    rw [ht_insert_succ] at h
    by_cases hload : Int.tdiv (ht.count * 100) ht.size > 70
    · simp only [hload, if_true] at h
      cases hr : ht_resize_up cfg fuel ht with
      | error e => simp [hr] at h
      | ok ht2 =>
        simp only [hr] at h
        refine hprobe _ _ _ _ _ _ ?_ h
        rcases ht_resize_body_ok cfg _ ht ht2 _ hr with ⟨_, h2⟩ | ⟨hb, h2⟩
        · rw [h2]; exact hp
        · exact ht_resize_loop_preserves _ P (fun t k v t1 hpt ht => ih t k v t1 hpt ht)
            _ _ _ (hnew _ hb) h2
    · simp only [hload, if_false] at h
      exact hprobe _ _ _ _ _ _ hp h

theorem ht_resize_preserves (cfg : Config) (P : ht_hash_table → Prop)
    (hnew : ∀ b, cfg.HT_INITIAL_BASE_SIZE ≤ b → P (ht_new_sized b))
    (hprobe : ∀ fuel ht key value attempt ht1, P ht →
      ht_insert_probe cfg fuel ht key value attempt = .ok ht1 → P ht1)
    (fuel : Nat) (ht ht1 : ht_hash_table) (base_size : Int)
    (hp : P ht) (h : ht_resize cfg fuel ht base_size = .ok ht1) : P ht1 := by
  rcases ht_resize_body_ok cfg _ ht ht1 _ h with ⟨_, h2⟩ | ⟨hb, h2⟩
  · rw [h2]; exact hp
  · exact ht_resize_loop_preserves _ P
      (fun t k v t1 hpt ht => ht_insert_preserves cfg P hnew hprobe fuel t k v t1 hpt ht)
      _ _ _ (hnew _ hb) h2

/-- The delete loop keeps `size`, `base_size` and `count`. -/
theorem ht_delete_probe_frame (cfg : Config) (key : CStr) :
    ∀ (fuel : Nat) (ht ht1 : ht_hash_table) (attempt : Nat),
      ht_delete_probe cfg fuel ht key attempt = .ok ht1 →
      ht1.size = ht.size ∧ ht1.base_size = ht.base_size ∧ ht1.count = ht.count := by
  intro fuel
  induction fuel with
  | zero => intro ht ht1 attempt h; simp [ht_delete_probe] at h
  | succ fuel ih =>
    intro ht ht1 attempt h
    unfold ht_delete_probe at h
    simp only at h
    generalize ht_get_hash cfg key ht.size attempt = index at h
    cases hs : slot_at ht index with
    | error e => simp [hs] at h
    | ok s =>
      cases s with
      | null =>
        simp only [hs] at h
        cases h
        exact ⟨rfl, rfl, rfl⟩
      | deleted =>
        simp only [hs] at h
        exact ih ht ht1 (attempt + 1) h
      | item k0 v0 =>
        simp only [hs] at h
        have := ih _ ht1 (attempt + 1) h
        by_cases hk : k0 = key
        · simpa [hk, set_slot] using this
        · simpa [hk] using this

/-- What `ht_delete` returns: the table after the load check, then the probe
loop, then the decrement of `count`. -/
theorem ht_delete_ok (cfg : Config) (fuel : Nat) (ht ht1 : ht_hash_table) (key : CStr)
    (h : ht_delete cfg fuel ht key = .ok ht1) :
    ∃ ht2 ht3,
      (if Int.tdiv (ht.count * 100) ht.size < 10 then ht_resize_down cfg fuel ht
        else .ok ht) = .ok ht2 ∧
      ht_delete_probe cfg fuel ht2 key 0 = .ok ht3 ∧
      ht1 = { ht3 with count := ht3.count - 1 } := by
  unfold ht_delete at h
  simp only at h
  cases hr : (if Int.tdiv (ht.count * 100) ht.size < 10 then ht_resize_down cfg fuel ht
      else .ok ht) with
  | error e => simp [hr] at h
  | ok ht2 =>
    simp only [hr] at h
    cases hd : ht_delete_probe cfg fuel ht2 key 0 with
    | error e => simp [hd] at h
    | ok ht3 =>
      simp only [hd] at h
      cases h
      exact ⟨ht2, ht3, rfl, hd, rfl⟩

/-- A property of `size`, `base_size` and the number of slots alone that holds
of every fresh table at or above the floor is kept by `ht_delete`. -/
theorem ht_delete_preserves (cfg : Config) (P : ht_hash_table → Prop)
    (hnew : ∀ b, cfg.HT_INITIAL_BASE_SIZE ≤ b → P (ht_new_sized b))
    (hframe : ∀ ht ht1 : ht_hash_table, ht1.size = ht.size → ht1.base_size = ht.base_size →
      ht1.items.length = ht.items.length → P ht → P ht1)
    (fuel : Nat) (ht ht1 : ht_hash_table) (key : CStr)
    (hp : P ht) (h : ht_delete cfg fuel ht key = .ok ht1) : P ht1 := by
  have hprobe : ∀ fuel ht key value attempt ht1, P ht →
      ht_insert_probe cfg fuel ht key value attempt = .ok ht1 → P ht1 := by
    intro fuel ht key value attempt ht1 hp h
    have hf := ht_insert_probe_frame cfg key value fuel ht ht1 attempt h
    exact hframe ht ht1 hf.1 hf.2.1 (ht_insert_probe_length cfg key value fuel ht ht1 attempt h) hp
  obtain ⟨ht2, ht3, h2, h3, h4⟩ := ht_delete_ok cfg fuel ht ht1 key h
  have hp2 : P ht2 := by
    by_cases hload : Int.tdiv (ht.count * 100) ht.size < 10
    · simp only [hload, if_true] at h2
      exact ht_resize_preserves cfg P hnew hprobe fuel ht ht2 _ hp h2
    · simp only [hload, if_false] at h2
      cases h2
      exact hp
  have hf := ht_delete_probe_frame cfg key fuel ht2 ht3 0 h3
  rw [h4]
  exact hframe ht2 _ hf.1 hf.2.1 (ht_delete_probe_length cfg key fuel ht2 ht3 0 h3) hp2

/-! ## Capacity (C9) and floor (C10) -/

theorem size_eq_next_prime_of_produced (cfg : Config) (ht : ht_hash_table)
    (h : Produced cfg ht) : ht.size = next_prime ht.base_size := by
  have hnew : ∀ b, cfg.HT_INITIAL_BASE_SIZE ≤ b →
      (ht_new_sized b).size = next_prime (ht_new_sized b).base_size := fun _ _ => rfl
  have hframe : ∀ t t1 : ht_hash_table, t1.size = t.size → t1.base_size = t.base_size →
      t1.items.length = t.items.length →
      t.size = next_prime t.base_size → t1.size = next_prime t1.base_size := by
    intro t t1 h1 h2 _ h3
    rw [h1, h2, h3]
  have hprobe : ∀ fuel t key value attempt t1, t.size = next_prime t.base_size →
      ht_insert_probe cfg fuel t key value attempt = .ok t1 →
      t1.size = next_prime t1.base_size := by
    intro fuel t key value attempt t1 hp h
    have hf := ht_insert_probe_frame cfg key value fuel t t1 attempt h
    exact hframe t t1 hf.1 hf.2.1 (ht_insert_probe_length cfg key value fuel t t1 attempt h) hp
  induction h with
  | new_sized b => rfl
  | resize _ hstep ih => exact ht_resize_preserves cfg _ hnew hprobe _ _ _ _ ih hstep
  | insert _ hstep ih => exact ht_insert_preserves cfg _ hnew hprobe _ _ _ _ _ ih hstep
  | delete _ hstep ih => exact ht_delete_preserves cfg _ hnew hframe _ _ _ _ ih hstep

theorem produced_of_reachable (cfg : Config) (ht : ht_hash_table) (h : Reachable cfg ht) :
    Produced cfg ht := by
  induction h with
  | new => exact Produced.new_sized _
  | insert _ hstep ih => exact Produced.insert ih hstep
  | delete _ hstep ih => exact Produced.delete ih hstep

/-- C9: in every table produced by `ht_new`, `ht_new_sized`, `ht_resize`,
`ht_insert` or `ht_delete`, `size` equals `next_prime(base_size)`: it is a
prime, it is at least `base_size`, and no prime `p` has `base_size ≤ p < size`. -/
theorem capacity_is_smallest_prime (cfg : Config) (ht : ht_hash_table)
    (h : Produced cfg ht) :
    ht.size = next_prime ht.base_size ∧ Nat.Prime ht.size.toNat ∧ ht.base_size ≤ ht.size ∧
      ∀ p : Nat, Nat.Prime p → ht.base_size ≤ (p : Int) → ¬ ((p : Int) < ht.size) := by
  have hk := size_eq_next_prime_of_produced cfg ht h
  obtain ⟨h1, _, h3, h4⟩ := next_prime_spec ht.base_size
  rw [hk]
  refine ⟨rfl, h1, h3, fun p hp hle hlt => ?_⟩
  have := h4 p hp hle
  omega

/-- Witness for C9: the table left by `ht_insert("A", "x")` and `ht_delete("A")`
has base size 50 and capacity 53. -/
theorem capacity_is_smallest_prime_witness :
    Produced refConfig (table53 0 [(12, Slot.deleted)]) ∧
      (table53 0 [(12, Slot.deleted)]).size = next_prime 50 ∧
      Nat.Prime (53 : Int).toNat ∧
      ¬ (((53 : Nat) : Int) < (table53 0 [(12, Slot.deleted)]).size) :=
  have hp : Produced refConfig (table53 0 [(12, Slot.deleted)]) :=
    produced_of_reachable refConfig _
      (reachable_run_calls refConfig 2 [.insert [65] [120], .delete [65]] _ _ Reachable.new
        (by decide))
  ⟨hp, (capacity_is_smallest_prime refConfig _ hp).1,
    (capacity_is_smallest_prime refConfig _ hp).2.1,
    (capacity_is_smallest_prime refConfig _ hp).2.2.2 53 (by norm_num) (by decide)⟩

theorem floor_of_reachable (cfg : Config) (ht : ht_hash_table) (h : Reachable cfg ht) :
    ht.size = next_prime ht.base_size ∧ cfg.HT_INITIAL_BASE_SIZE ≤ ht.base_size := by
  have hnew : ∀ b, cfg.HT_INITIAL_BASE_SIZE ≤ b →
      (ht_new_sized b).size = next_prime (ht_new_sized b).base_size ∧
        cfg.HT_INITIAL_BASE_SIZE ≤ (ht_new_sized b).base_size := fun _ hb => ⟨rfl, hb⟩
  have hframe : ∀ t t1 : ht_hash_table, t1.size = t.size → t1.base_size = t.base_size →
      t1.items.length = t.items.length →
      (t.size = next_prime t.base_size ∧ cfg.HT_INITIAL_BASE_SIZE ≤ t.base_size) →
      (t1.size = next_prime t1.base_size ∧ cfg.HT_INITIAL_BASE_SIZE ≤ t1.base_size) := by
    intro t t1 h1 h2 _ h3
    rw [h1, h2]
    exact h3
  have hprobe : ∀ fuel t key value attempt t1,
      (t.size = next_prime t.base_size ∧ cfg.HT_INITIAL_BASE_SIZE ≤ t.base_size) →
      ht_insert_probe cfg fuel t key value attempt = .ok t1 →
      (t1.size = next_prime t1.base_size ∧ cfg.HT_INITIAL_BASE_SIZE ≤ t1.base_size) := by
    intro fuel t key value attempt t1 hp h
    have hf := ht_insert_probe_frame cfg key value fuel t t1 attempt h
    exact hframe t t1 hf.1 hf.2.1 (ht_insert_probe_length cfg key value fuel t t1 attempt h) hp
  induction h with
  | new => exact ⟨rfl, le_refl _⟩
  | insert _ hstep ih => exact ht_insert_preserves cfg _ hnew hprobe _ _ _ _ _ ih hstep
  | delete _ hstep ih => exact ht_delete_preserves cfg _ hnew hframe _ _ _ _ ih hstep

/-- C10: in every table reachable from `ht_new()` by inserts and deletes,
`base_size ≥ HT_INITIAL_BASE_SIZE` and `size ≥ next_prime(HT_INITIAL_BASE_SIZE)`;
and `ht_resize` with a target base size below `HT_INITIAL_BASE_SIZE` returns
the table with every field and every slot unchanged. -/
theorem minimum_floor (cfg : Config) (ht : ht_hash_table) (h : Reachable cfg ht) :
    cfg.HT_INITIAL_BASE_SIZE ≤ ht.base_size ∧
      next_prime cfg.HT_INITIAL_BASE_SIZE ≤ ht.size ∧
      ∀ (fuel : Nat) (base_size : Int), base_size < cfg.HT_INITIAL_BASE_SIZE →
        ht_resize cfg fuel ht base_size = .ok ht := by
  obtain ⟨hk, hb⟩ := floor_of_reachable cfg ht h
  refine ⟨hb, ?_, ?_⟩
  · rw [hk]
    exact next_prime_mono hb
  · intro fuel base_size hlt
    unfold ht_resize ht_resize_body
    rw [if_pos hlt]

/-- Witness for C10: the table left by `ht_insert("A", "x")` and `ht_delete("A")`
keeps base size 50 and capacity 53, and the shrink request to base size 25 made
by a further `ht_delete` leaves it as it is. -/
theorem minimum_floor_witness :
    Reachable refConfig (table53 0 [(12, Slot.deleted)]) ∧
      (50 : Int) ≤ (table53 0 [(12, Slot.deleted)]).base_size ∧
      next_prime 50 ≤ (table53 0 [(12, Slot.deleted)]).size ∧
      ht_resize refConfig 2 (table53 0 [(12, Slot.deleted)]) 25
        = .ok (table53 0 [(12, Slot.deleted)]) :=
  have hr : Reachable refConfig (table53 0 [(12, Slot.deleted)]) :=
    reachable_run_calls refConfig 2 [.insert [65] [120], .delete [65]] _ _ Reachable.new
      (by decide)
  ⟨hr, (minimum_floor refConfig _ hr).1, (minimum_floor refConfig _ hr).2.1,
    (minimum_floor refConfig _ hr).2.2 2 25 (by decide)⟩

/-! ## Overwriting a key (C5) -/

theorem slot_at_with_count (ht : ht_hash_table) (c : Int) (j : Int) :
    slot_at { ht with count := c } j = slot_at ht j := rfl

/-- Inserting the same key again, from the same attempt, replaces the item
stored by the first insertion and leaves `count` as it is. -/
theorem ht_insert_probe_again (cfg : Config) (key v1 v2 : CStr) :
    ∀ (fuel : Nat) (ht ht1 : ht_hash_table) (attempt : Nat),
      ht_insert_probe cfg fuel ht key v1 attempt = .ok ht1 →
      ∃ ht2, ht_insert_probe cfg fuel ht1 key v2 attempt = .ok ht2 ∧
        ht2.count = ht1.count := by
  intro fuel
  induction fuel with
  | zero => intro ht ht1 attempt h; simp [ht_insert_probe] at h
  | succ fuel ih =>
    intro ht ht1 attempt h
    have hfr := ht_insert_probe_frame cfg key v1 (fuel + 1) ht ht1 attempt h
    rw [ht_insert_probe_succ] at h
    rw [ht_insert_probe_succ, hfr.1]
    generalize ht_get_hash cfg key ht.size attempt = index at h ⊢
    cases hs : slot_at ht index with
    | error e => simp [hs] at h
    | ok s =>
      cases s with
      | null =>
        simp only [hs] at h
        cases h
        rw [slot_at_with_count, slot_at_set_slot_same (Slot.item key v1) hs]
        simp only [if_true]
        exact ⟨_, rfl, rfl⟩
      | deleted =>
        simp only [hs] at h
        cases h
        rw [slot_at_with_count, slot_at_set_slot_same (Slot.item key v1) hs]
        simp only [if_true]
        exact ⟨_, rfl, rfl⟩
      | item k0 v0 =>
        simp only [hs] at h
        by_cases hk : k0 = key
        · simp only [hk, if_true] at h
          cases h
          rw [slot_at_set_slot_same (Slot.item key v1) hs]
          simp only [if_true]
          exact ⟨_, rfl, rfl⟩
        · simp only [hk, if_false] at h
          rw [hfr.2.2 index k0 v0 hk hs]
          simp only [hk, if_false]
          exact ih ht ht1 (attempt + 1) h

/-- C5 (amended): for every table reachable from `ht_new()` by inserts and
deletes, every key `k` and values `v1`, `v2`: after `ht_insert(t, k, v1)`
followed by `ht_insert(t, k, v2)`, `ht_search(t, k)` returns `v2`; and if the
first insert leaves `count*100/size ≤ 70`, so that the second one does not grow
the table, the second insert returns and `count` keeps the value it had right
after the first. -/
theorem overwrite_keeps_count (cfg : Config) (ht : ht_hash_table) (_hr : Reachable cfg ht)
    (fuel : Nat) (key v1 v2 : CStr) (ht1 : ht_hash_table)
    (h1 : ht_insert cfg fuel ht key v1 = .ok ht1) :
    (∀ ht2, ht_insert cfg fuel ht1 key v2 = .ok ht2 →
        ht_search cfg fuel ht2 key = .ok (some v2)) ∧
      (Int.tdiv (ht1.count * 100) ht1.size ≤ 70 →
        ∃ ht2, ht_insert cfg fuel ht1 key v2 = .ok ht2 ∧ ht2.count = ht1.count) := by
  constructor
  · intro ht2 h2
    cases fuel with
    | zero => simp [ht_insert] at h1
    | succ fuel =>
      rw [ht_insert_succ] at h2
      cases hr : (if Int.tdiv (ht1.count * 100) ht1.size > 70 then ht_resize_up cfg fuel ht1
          else .ok ht1) with
      | error e => simp [hr] at h2
      | ok ht0 =>
        simp only [hr] at h2
        exact ht_insert_probe_search cfg key v2 (fuel + 1) ht0 ht2 0 h2
  · intro hload
    cases fuel with
    | zero => simp [ht_insert] at h1
    | succ fuel =>
      rw [ht_insert_succ] at h1
      cases hr : (if Int.tdiv (ht.count * 100) ht.size > 70 then ht_resize_up cfg fuel ht
          else .ok ht) with
      | error e => simp [hr] at h1
      | ok ht0 =>
        simp only [hr] at h1
        obtain ⟨ht2, h2, hc⟩ := ht_insert_probe_again cfg key v1 v2 (fuel + 1) ht0 ht1 0 h1
        have hno : ¬ Int.tdiv (ht1.count * 100) ht1.size > 70 := by omega
        refine ⟨ht2, ?_, hc⟩
        rw [ht_insert_succ]
        simp only [hno, if_false]
        exact h2

/-- Witness for C5 (amended): `"A"` is inserted twice into the table holding a
tombstone in slot 12; the second insert replaces the value, `count` stays 1
and the search returns the second value. -/
theorem overwrite_keeps_count_witness :
    Reachable refConfig (table53 0 [(12, Slot.deleted)]) ∧
      ht_insert refConfig 2 (table53 0 [(12, Slot.deleted)]) [65] [121]
        = .ok (table53 1 [(12, Slot.item [65] [121])]) ∧
      ht_insert refConfig 2 (table53 1 [(12, Slot.item [65] [121])]) [65] [122]
        = .ok (table53 1 [(12, Slot.item [65] [122])]) ∧
      ht_search refConfig 2 (table53 1 [(12, Slot.item [65] [122])]) [65] = .ok (some [122]) ∧
      Int.tdiv ((table53 1 [(12, Slot.item [65] [121])]).count * 100)
        (table53 1 [(12, Slot.item [65] [121])]).size ≤ 70 ∧
      ∃ ht2, ht_insert refConfig 2 (table53 1 [(12, Slot.item [65] [121])]) [65] [122] = .ok ht2 ∧
        ht2.count = (table53 1 [(12, Slot.item [65] [121])]).count :=
  have hr : Reachable refConfig (table53 0 [(12, Slot.deleted)]) :=
    reachable_run_calls refConfig 2 [.insert [65] [120], .delete [65]] _ _ Reachable.new
      (by decide)
  have h := overwrite_keeps_count refConfig (table53 0 [(12, Slot.deleted)]) hr 2 [65] [121]
    [122] (table53 1 [(12, Slot.item [65] [121])]) (by decide)
  ⟨hr, by decide, by decide, h.1 _ (by decide), by decide, h.2 (by decide)⟩

set_option maxRecDepth 100000 in
/-- Counterexample to C5 as stated: `ht_delete("z")` on `ht_new()` finds
nothing and leaves `count = -1`; 38 insertions of distinct keys bring `count`
to 37 with 38 items stored.  Then `ht_insert("n", "x")` stores a 39th item and
returns with `count = 38`, and the second `ht_insert("n", "y")` sees the load
`38*100/53 = 71`, rebuilds the table at base size 100 and returns with
`count = 39`. -/
theorem overwrite_after_resize_changes_count :
    ∃ ht ht1 ht2, Reachable refConfig ht ∧
      ht_insert refConfig 2 ht [110] [120] = .ok ht1 ∧
      ht_insert refConfig 2 ht1 [110] [121] = .ok ht2 ∧
      ht1.count = 38 ∧ ht2.count = 39 :=
  ⟨_, _, _,
    reachable_run_calls refConfig 2 (Call.delete [122] :: insert_letters letters38) _ _
      Reachable.new rfl,
    rfl, rfl, rfl, rfl⟩

/-! ## Counting items -/

theorem occupied_cons (s : Slot) (l : List Slot) :
    occupied (s :: l) = occupied l + item_weight s := by
  cases s <;> rfl

theorem occupied_replicate_null (n : Nat) : occupied (List.replicate n Slot.null) = 0 := by
  induction n with
  | zero => rfl
  | succ n ih => simpa [List.replicate, occupied] using ih

theorem occupied_set :
    ∀ (l : List Slot) (i : Nat) (s0 s : Slot), l[i]? = some s0 →
      occupied (l.set i s) + item_weight s0 = occupied l + item_weight s := by
  intro l
  induction l with
  | nil => intro i s0 s h; simp at h
  | cons x xs ih =>
    intro i s0 s h
    cases i with
    | zero =>
      simp only [List.getElem?_cons_zero, Option.some.injEq] at h
      subst h
      simp only [List.set_cons_zero, occupied_cons]
      omega
    | succ j =>
      simp only [List.getElem?_cons_succ] at h
      have := ih j s0 s h
      simp only [List.set_cons_succ, occupied_cons]
      omega

theorem occupied_set_slot {ht : ht_hash_table} {index : Int} {s0 : Slot} (s : Slot)
    (h : slot_at ht index = .ok s0) :
    occupied (set_slot ht index s).items + item_weight s0
      = occupied ht.items + item_weight s :=
  occupied_set ht.items index.toNat s0 s ((slot_at_ok_iff ht index s0).1 h).2

/-- The insert loop either replaces an item (count and number of items
unchanged) or fills a free slot (both go up by one). -/
theorem ht_insert_probe_count (cfg : Config) (key value : CStr) :
    ∀ (fuel : Nat) (ht ht1 : ht_hash_table) (attempt : Nat),
      ht_insert_probe cfg fuel ht key value attempt = .ok ht1 →
      (ht1.count = ht.count ∧ occupied ht1.items = occupied ht.items) ∨
        (ht1.count = ht.count + 1 ∧ occupied ht1.items = occupied ht.items + 1) := by
  intro fuel
  induction fuel with
  | zero => intro ht ht1 attempt h; simp [ht_insert_probe] at h
  | succ fuel ih =>
    intro ht ht1 attempt h
    rw [ht_insert_probe_succ] at h
    generalize ht_get_hash cfg key ht.size attempt = index at h
    cases hs : slot_at ht index with
    | error e => simp [hs] at h
    | ok s =>
      have ho := occupied_set_slot (Slot.item key value) hs
      cases s with
      | null =>
        simp only [hs] at h
        cases h
        right
        exact ⟨rfl, by simpa [item_weight] using ho⟩
      | deleted =>
        simp only [hs] at h
        cases h
        right
        exact ⟨rfl, by simpa [item_weight] using ho⟩
      | item k0 v0 =>
        simp only [hs] at h
        by_cases hk : k0 = key
        · simp only [hk, if_true] at h
          cases h
          left
          exact ⟨rfl, by simpa [item_weight] using ho⟩
        · simp only [hk, if_false] at h
          exact ih ht ht1 (attempt + 1) h

theorem insert_inv_new_sized (cfg : Config) (b : Int) (hb : cfg.HT_INITIAL_BASE_SIZE ≤ b) :
    InsertInv cfg (ht_new_sized b) :=
  ⟨rfl, hb, by simp [ht_new_sized, occupied_replicate_null]⟩

theorem insert_inv_probe (cfg : Config) (fuel : Nat) (ht : ht_hash_table) (key value : CStr)
    (attempt : Nat) (ht1 : ht_hash_table) (hinv : InsertInv cfg ht)
    (h : ht_insert_probe cfg fuel ht key value attempt = .ok ht1) : InsertInv cfg ht1 := by
  obtain ⟨h1, h2, h3⟩ := hinv
  have hf := ht_insert_probe_frame cfg key value fuel ht ht1 attempt h
  refine ⟨by rw [hf.1, hf.2.1, h1], by rw [hf.2.1]; exact h2, ?_⟩
  rcases ht_insert_probe_count cfg key value fuel ht ht1 attempt h with ⟨c1, c2⟩ | ⟨c1, c2⟩
  · rw [c1, c2, h3]
  · rw [c1, c2, h3]; push_cast; rfl

theorem insert_inv_insert (cfg : Config) (fuel : Nat) (ht : ht_hash_table) (key value : CStr)
    (ht1 : ht_hash_table) (hinv : InsertInv cfg ht)
    (h : ht_insert cfg fuel ht key value = .ok ht1) : InsertInv cfg ht1 :=
  ht_insert_preserves cfg (InsertInv cfg) (insert_inv_new_sized cfg)
    (fun f t k v a t1 hp hs => insert_inv_probe cfg f t k v a t1 hp hs)
    fuel ht key value ht1 hinv h

/-! ## Growth under insertion and the load bound (C6) -/

theorem ht_hash_loop_range (prime_num hash_size : Int) (len_s : Nat)
    (hp : 0 ≤ prime_num) (hm : 0 < hash_size) :
    ∀ (rest : List Int) (i : Nat) (hash : Int),
      (∀ c ∈ rest, 0 ≤ c) → 0 ≤ hash → hash < hash_size →
      0 ≤ ht_hash_loop prime_num hash_size len_s rest i hash ∧
        ht_hash_loop prime_num hash_size len_s rest i hash < hash_size := by
  intro rest
  induction rest with
  | nil => intro i hash _ h0 h1; exact ⟨h0, h1⟩
  | cons c rest ih =>
    intro i hash hc h0 _
    unfold ht_hash_loop
    have hc0 : 0 ≤ c := hc c (List.mem_cons_self _ _)
    have hpow : 0 ≤ prime_num ^ (len_s - (i + 1)) := pow_nonneg hp _
    have harg : 0 ≤ hash + prime_num ^ (len_s - (i + 1)) * c :=
      add_nonneg h0 (mul_nonneg hpow hc0)
    exact ih (i + 1) _ (fun d hd => hc d (List.mem_cons_of_mem _ hd))
      (Int.tmod_nonneg _ harg) (Int.tmod_lt_of_pos _ hm)

/-- For a key of non-negative characters, a non-negative prime and a positive
modulus, `ht_hash` lies in `[0, hash_size)`. -/
theorem ht_hash_range (s : CStr) (prime_num hash_size : Int)
    (hs : ∀ c ∈ s, 0 ≤ c) (hp : 0 ≤ prime_num) (hm : 0 < hash_size) :
    0 ≤ ht_hash s prime_num hash_size ∧ ht_hash s prime_num hash_size < hash_size :=
  ht_hash_loop_range prime_num hash_size s.length hp hm s 0 0 hs (le_refl 0) hm

/-- Both hashes of a one-character key are its character reduced modulo the
table size, whatever the prime is. -/
theorem ht_hash_single (c prime_num hash_size : Int) :
    ht_hash [c] prime_num hash_size = Int.tmod c hash_size := by
  simp [ht_hash, ht_hash_loop]

/-- With non-negative hashes the probe index is the remainder of
`hash_a + attempt * (hash_b + 1)` and lies in `[0, num_buckets)`. -/
theorem ht_get_hash_range (cfg : Config) (s : CStr) (num_buckets : Int) (attempt : Nat)
    (hs : ∀ c ∈ s, 0 ≤ c) (hp1 : 0 ≤ cfg.HT_PRIME_1) (hp2 : 0 ≤ cfg.HT_PRIME_2)
    (hm : 0 < num_buckets) :
    ht_get_hash cfg s num_buckets attempt =
        (ht_hash s cfg.HT_PRIME_1 num_buckets
          + (attempt : Int) * (ht_hash s cfg.HT_PRIME_2 num_buckets + 1)) % num_buckets ∧
      0 ≤ ht_get_hash cfg s num_buckets attempt ∧
      ht_get_hash cfg s num_buckets attempt < num_buckets := by
  have ha := (ht_hash_range s cfg.HT_PRIME_1 num_buckets hs hp1 hm).1
  have hb := (ht_hash_range s cfg.HT_PRIME_2 num_buckets hs hp2 hm).1
  have harg : 0 ≤ ht_hash s cfg.HT_PRIME_1 num_buckets
      + (attempt : Int) * (ht_hash s cfg.HT_PRIME_2 num_buckets + 1) := by positivity
  simp only [ht_get_hash]
  exact ⟨Int.tmod_eq_emod harg (le_of_lt hm), Int.tmod_nonneg _ harg, Int.tmod_lt_of_pos _ hm⟩

/-- A step that is not a multiple of a prime modulus reaches every residue
within `m` attempts. -/
theorem probe_reaches (m a s j : Nat) (hm : Nat.Prime m) (hs0 : 0 < s) (hsm : s < m)
    (hj : j < m) : ∃ i, i < m ∧ (a + i * s) % m = j := by
  have hcop : Nat.Coprime s m := (Nat.coprime_of_lt_prime hs0 hsm hm).symm
  obtain ⟨t, ht⟩ := Nat.exists_mul_emod_eq_one_of_coprime hcop hm.one_lt
  have hmpos : 0 < m := hm.pos
  refine ⟨((j + (m - a % m)) * t) % m, Nat.mod_lt _ hmpos, ?_⟩
  have h1 : s * t ≡ 1 [MOD m] := by
    unfold Nat.ModEq
    rw [ht, Nat.mod_eq_of_lt hm.one_lt]
  have h2 : ((j + (m - a % m)) * t) % m * s ≡ j + (m - a % m) [MOD m] := by
    have h3 : ((j + (m - a % m)) * t) % m * s ≡ (j + (m - a % m)) * t * s [MOD m] :=
      Nat.ModEq.mul_right _ (Nat.mod_modEq _ _)
    have h4 : (j + (m - a % m)) * t * s = (j + (m - a % m)) * (s * t) := by ring
    have h5 : (j + (m - a % m)) * (s * t) ≡ (j + (m - a % m)) * 1 [MOD m] :=
      Nat.ModEq.mul_left _ h1
    rw [h4] at h3
    simpa using h3.trans h5
  have h6 : a + ((j + (m - a % m)) * t) % m * s ≡ a % m + (j + (m - a % m)) [MOD m] :=
    Nat.ModEq.add (Nat.mod_modEq a m).symm h2
  have hlt : a % m < m := Nat.mod_lt _ hmpos
  have h7 : a % m + (j + (m - a % m)) = j + m := by omega
  rw [h7] at h6
  have h8 : (j + m) % m = j := by
    rw [Nat.add_mod_right, Nat.mod_eq_of_lt hj]
  exact Eq.trans h6 h8

/-! ## Termination of the insert loop (C8) -/

/-- C12 (the code at the failing input): `"A"` and `"v"` share the first slot 12.
After `ht_insert("A")`, `ht_insert("v")`, `ht_delete("A")` and a second
`ht_insert("v")` the key `"v"` is in slots 12 and 25 with `count = 2`;
`ht_delete("v")` turns both into tombstones and takes 1 from `count`; then
`ht_insert("v")` reuses slot 12 and `ht_insert("N")` reuses slot 25.  The
reachable table has `count = 3` and only 2 slots that are not `NULL`. -/
theorem count_exceeds_non_empty_slots :
    Reachable refConfig
        (table53 3 [(12, Slot.item [118] [123]), (25, Slot.item [78] [124])]) ∧
      (table53 3 [(12, Slot.item [118] [123]), (25, Slot.item [78] [124])]).count = 3 ∧
      non_empty (table53 3 [(12, Slot.item [118] [123]), (25, Slot.item [78] [124])]).items
        = 2 :=
  ⟨reachable_run_calls refConfig 3
      [.insert [65] [120], .insert [118] [121], .delete [65], .insert [118] [122],
        .delete [118], .insert [118] [123], .insert [78] [124]] _ _ Reachable.new (by decide),
    by decide, by decide⟩

/-! ## The step of the probe sequence (C13) -/

/-- C13 (the code at the failing input): 53 is prime, the key `"i"` has
`hash_b = 52`, so the step `hash_b + 1 = 53` is zero modulo 53 and
`ht_get_hash("i", 53, i)` is 52 for every attempt `i`. -/
theorem probe_step_is_zero_modulo_size :
    Nat.Prime 53 ∧ ht_hash [105] refConfig.HT_PRIME_2 53 = 52 ∧
      (ht_hash [105] refConfig.HT_PRIME_2 53 + 1) % 53 = 0 ∧
      ∀ attempt : Nat, ht_get_hash refConfig [105] 53 attempt = 52 :=
  ⟨by norm_num, by decide, by decide, stall_index⟩

/-! ## Characters with a negative value (C15, C19) -/

/-- C15 (the code at the failing input): the one-byte key `"\xe9"` has the
`char` value -23 where plain `char` is signed.  Its hash modulo 53 is -23, the
index of attempt 0 is -23, and `ht_search` and `ht_insert` on `ht_new()` read
`items[-23]`. -/
theorem negative_char_gives_negative_index :
    ht_hash [-23] refConfig.HT_PRIME_1 53 = -23 ∧
      ht_get_hash refConfig [-23] 53 0 = -23 ∧
      ht_search refConfig 1 (ht_new refConfig) [-23] = .error .out_of_bounds ∧
      ht_insert refConfig 1 (ht_new refConfig) [-23] [120] = .error .out_of_bounds :=
  ⟨by decide, by decide, by decide, by decide⟩

/-- C19 (the code at the failing input): 53 is prime and the one-byte key
`"\xff"` has the `char` value -1 where plain `char` is signed.  Its second hash
is -1, which is not 52, the step is 0, and `ht_get_hash` is -1 for every
attempt: the indices of the attempts 0..52 are neither distinct nor in `[0, 53)`. -/
theorem negative_char_probe_is_constant :
    Nat.Prime 53 ∧ ht_hash [-1] refConfig.HT_PRIME_2 53 = -1 ∧
      ht_hash [-1] refConfig.HT_PRIME_2 53 ≠ 53 - 1 ∧
      ∀ attempt : Nat, ht_get_hash refConfig [-1] 53 attempt = -1 := by
  refine ⟨by norm_num, by decide, by decide, ?_⟩
  intro attempt
  have ha : ht_hash [-1] refConfig.HT_PRIME_1 53 = -1 := by decide
  have hb : ht_hash [-1] refConfig.HT_PRIME_2 53 = -1 := by decide
  simp only [ht_get_hash, ha, hb]
  simp only [neg_add_cancel, mul_zero, add_zero]
  decide

/-! ## Resize and duplicated keys (C17) -/

/-- C17 (the code at the failing input): in the reachable table that holds the
key `"v"` in slots 12 (value `"z"`) and 25 (value `"y"`), `ht_search("v")`
returns `"z"`.  `ht_resize` to base size 100 returns a table without
tombstones whose `count` is its number of items, but re-inserts slot 12 and
then slot 25, so `ht_search("v")` returns `"y"` afterwards. -/
theorem resize_changes_search_result :
    Reachable refConfig
        (table53 2 [(12, Slot.item [118] [122]), (25, Slot.item [118] [121])]) ∧
      ht_search refConfig 2
          (table53 2 [(12, Slot.item [118] [122]), (25, Slot.item [118] [121])]) [118]
        = .ok (some [122]) ∧
      ∃ ht1,
        ht_resize refConfig 2
            (table53 2 [(12, Slot.item [118] [122]), (25, Slot.item [118] [121])]) 100
          = .ok ht1 ∧
        tombstones ht1.items = 0 ∧ ht1.count = (occupied ht1.items : Int) ∧
        ht_search refConfig 2 ht1 [118] = .ok (some [121]) :=
  ⟨reachable_run_calls refConfig 3
      [.insert [65] [120], .insert [118] [121], .delete [65], .insert [118] [122]] _ _
      Reachable.new (by decide),
    by decide, _, rfl, rfl, rfl, rfl⟩

/-! ## The hash and its formula (C14) -/

/-- Where the checked loop returns, it returns the value of the loop of `ht_hash`. -/
theorem ht_hash_checked_loop_ok (prime_num hash_size : Int) (len_s : Nat) :
    ∀ (rest : List Int) (i : Nat) (hash h : Int),
      ht_hash_checked_loop prime_num hash_size len_s rest i hash = .ok h →
      h = ht_hash_loop prime_num hash_size len_s rest i hash := by
  intro rest
  induction rest with
  | nil =>
    intro i hash h hc
    simp only [ht_hash_checked_loop] at hc
    cases hc
    rfl
  | cons c rest ih =>
    intro i hash h hc
    unfold ht_hash_checked_loop at hc
    unfold ht_hash_loop
    split at hc
    · cases hc
    · split at hc
      · cases hc
      · split at hc
        · cases hc
        · exact ih _ _ _ hc

/-- Where `ht_hash_checked` returns, it returns the value of `ht_hash`. -/
theorem ht_hash_checked_ok (s : CStr) (prime_num hash_size h : Int)
    (hc : ht_hash_checked s prime_num hash_size = .ok h) :
    h = ht_hash s prime_num hash_size :=
  ht_hash_checked_loop_ok prime_num hash_size s.length s 0 0 h hc

/-- For a prime constant of at least 128, the checked hash of every key of ten
or more characters overflows at its first character. -/
theorem ht_hash_checked_overflows (s : CStr) (prime_num hash_size : Int)
    (hp : 128 ≤ prime_num) (hs : 10 ≤ s.length) :
    ht_hash_checked s prime_num hash_size = .error .overflow := by
  cases s with
  | nil => simp at hs
  | cons c rest =>
    unfold ht_hash_checked ht_hash_checked_loop
    have hlen : 9 ≤ (c :: rest).length - (0 + 1) := by
      simp only [List.length_cons] at hs ⊢
      omega
    have h1 : (128 : Int) ^ 9 ≤ prime_num ^ 9 := pow_le_pow_left₀ (by norm_num) hp 9
    have h2 : prime_num ^ 9 ≤ prime_num ^ ((c :: rest).length - (0 + 1)) :=
      pow_le_pow_right₀ (by omega) hlen
    have h3 : (2 : Int) ^ 53 ≤ (128 : Int) ^ 9 := by norm_num
    rw [if_pos (Or.inl (le_trans h3 (le_trans h1 h2)))]

theorem ht_hash_loop_eq_sum (prime_num hash_size : Int) (len_s : Nat)
    (hp : 0 ≤ prime_num) (hm : 0 < hash_size) :
    ∀ (rest : List Int) (i : Nat) (hash : Int),
      (∀ c ∈ rest, 0 ≤ c) → 0 ≤ hash → hash < hash_size →
      ht_hash_loop prime_num hash_size len_s rest i hash =
        (hash + ((List.range rest.length).map
          (fun j => prime_num ^ (len_s - 1 - (i + j)) * rest.getD j 0)).sum) % hash_size := by
  intro rest
  induction rest with
  | nil =>
    intro i hash _ h0 h1
    simp only [ht_hash_loop, List.length_nil, List.range_zero, List.map_nil, List.sum_nil,
      add_zero]
    exact (Int.emod_eq_of_lt h0 h1).symm
  | cons c rest ih =>
    intro i hash hc h0 _
    unfold ht_hash_loop
    have hc0 : 0 ≤ c := hc c (List.mem_cons_self _ _)
    have hpow : 0 ≤ prime_num ^ (len_s - (i + 1)) := pow_nonneg hp _
    have harg : 0 ≤ hash + prime_num ^ (len_s - (i + 1)) * c :=
      add_nonneg h0 (mul_nonneg hpow hc0)
    rw [ih (i + 1) _ (fun d hd => hc d (List.mem_cons_of_mem _ hd))
      (Int.tmod_nonneg _ harg) (Int.tmod_lt_of_pos _ hm)]
    rw [Int.tmod_eq_emod harg (le_of_lt hm), Int.emod_add_emod]
    congr 1
    rw [List.length_cons, List.range_succ_eq_map, List.map_cons, List.sum_cons, List.map_map]
    have he : len_s - 1 - (i + 0) = len_s - (i + 1) := by omega
    simp only [List.getD_cons_zero, he]
    have hf : ((fun j => prime_num ^ (len_s - 1 - (i + j)) * (c :: rest).getD j 0) ∘ Nat.succ)
        = (fun j => prime_num ^ (len_s - 1 - (i + 1 + j)) * rest.getD j 0) := by
      funext j
      have : i + j.succ = i + 1 + j := by omega
      simp [this]
    rw [hf]
    ring

/-- In exact arithmetic, for non-negative characters, a non-negative prime
constant and a positive modulus, `ht_hash` equals the formula of the
specification. -/
theorem ht_hash_eq_formula (s : CStr) (prime_num hash_size : Int)
    (hs : ∀ c ∈ s, 0 ≤ c) (hp : 0 ≤ prime_num) (hm : 0 < hash_size) :
    ht_hash s prime_num hash_size = hash_formula s prime_num hash_size := by
  unfold ht_hash hash_formula
  rw [ht_hash_loop_eq_sum prime_num hash_size s.length hp hm s 0 0 hs (le_refl 0) hm]
  simp

/-- C14 (the code at the failing input): for the key `"aaaaaaaaaa"` the first
term of the loop is `(long)pow(151, 9) * 'a'`.  `151^9` is at least `2^63`, so
the conversion to `long` is outside its range and the checked hash does not
return a value, while the formula of the specification gives 36. -/
theorem hash_of_ten_characters_overflows :
    (2 : Int) ^ 63 ≤ refConfig.HT_PRIME_1 ^ 9 ∧
      ht_hash_checked [97, 97, 97, 97, 97, 97, 97, 97, 97, 97] refConfig.HT_PRIME_1 53
        = .error .overflow ∧
      hash_formula [97, 97, 97, 97, 97, 97, 97, 97, 97, 97] refConfig.HT_PRIME_1 53 = 36 :=
  ⟨by decide, by decide, by decide⟩

/-! ## Rebuilding without a nested grow -/

/-- What the insert loop does when it returns: it has passed items with other
keys only, and the slot it writes held `NULL`, the tombstone or the key. -/
theorem ht_insert_probe_ok (cfg : Config) (key value : CStr) :
    ∀ (fuel : Nat) (ht ht1 : ht_hash_table) (attempt : Nat),
      ht_insert_probe cfg fuel ht key value attempt = .ok ht1 →
      ∃ (a : Nat) (s0 : Slot), attempt ≤ a ∧
        (∀ b : Nat, attempt ≤ b → b < a →
          ∃ k1 v1, slot_at ht (ht_get_hash cfg key ht.size b) = .ok (.item k1 v1) ∧ k1 ≠ key) ∧
        slot_at ht (ht_get_hash cfg key ht.size a) = .ok s0 ∧ stops_insert key s0 = true ∧
        ht1.items = ht.items.set (ht_get_hash cfg key ht.size a).toNat (.item key value) ∧
        ht1.size = ht.size := by
  intro fuel
  induction fuel with
  | zero => intro ht ht1 attempt h; simp [ht_insert_probe] at h
  | succ fuel ih =>
    intro ht ht1 attempt h
    rw [ht_insert_probe_succ] at h
    cases hs : slot_at ht (ht_get_hash cfg key ht.size attempt) with
    | error e => simp [hs] at h
    | ok s =>
      cases s with
      | null =>
        simp only [hs] at h
        cases h
        exact ⟨attempt, Slot.null, le_refl _, fun b h1 h2 => by omega, hs, rfl, rfl, rfl⟩
      | deleted =>
        simp only [hs] at h
        cases h
        exact ⟨attempt, Slot.deleted, le_refl _, fun b h1 h2 => by omega, hs, rfl, rfl, rfl⟩
      | item k0 v0 =>
        simp only [hs] at h
        by_cases hk : k0 = key
        · simp only [hk, if_true] at h
          cases h
          exact ⟨attempt, Slot.item k0 v0, le_refl _, fun b h1 h2 => by omega, hs,
            by simp [stops_insert, hk], rfl, rfl⟩
        · simp only [hk, if_false] at h
          obtain ⟨a, s0, h1, h2, h3, h4, h5, h6⟩ := ih ht ht1 (attempt + 1) h
          refine ⟨a, s0, by omega, ?_, h3, h4, h5, h6⟩
          intro b hb1 hb2
          by_cases hb : b = attempt
          · subst hb
            exact ⟨k0, v0, hs, hk⟩
          · exact h2 b (by omega) hb2

/-- A property that holds of every fresh table at or above the floor and is
kept by the probe loop started at attempt 0 is kept by `ht_insert`. -/
theorem ht_insert_preserves_from_zero (cfg : Config) (P : ht_hash_table → Prop)
    (hnew : ∀ b, cfg.HT_INITIAL_BASE_SIZE ≤ b → P (ht_new_sized b))
    (hprobe : ∀ fuel ht key value ht1, P ht →
      ht_insert_probe cfg fuel ht key value 0 = .ok ht1 → P ht1) :
    ∀ (fuel : Nat) (ht : ht_hash_table) (key value : CStr) (ht1 : ht_hash_table),
      P ht → ht_insert cfg fuel ht key value = .ok ht1 → P ht1 := by
  intro fuel
  induction fuel with
  | zero => intro ht key value ht1 _ h; simp [ht_insert] at h
  | succ fuel ih =>
    intro ht key value ht1 hp h
    rw [ht_insert_succ] at h
    by_cases hload : Int.tdiv (ht.count * 100) ht.size > 70
    · simp only [hload, if_true] at h
      cases hr : ht_resize_up cfg fuel ht with
      | error e => simp [hr] at h
      | ok ht2 =>
        simp only [hr] at h
        refine hprobe _ _ _ _ _ ?_ h
        rcases ht_resize_body_ok cfg _ ht ht2 _ hr with ⟨_, h2⟩ | ⟨hb, h2⟩
        · rw [h2]; exact hp
        · exact ht_resize_loop_preserves _ P (fun t k v t1 hpt ht => ih t k v t1 hpt ht)
            _ _ _ (hnew _ hb) h2
    · simp only [hload, if_false] at h
      exact hprobe _ _ _ _ _ hp h

/-- `ht_insert` writes no tombstone. -/
theorem no_tombstone_insert (cfg : Config) (fuel : Nat) (ht : ht_hash_table) (key value : CStr)
    (ht1 : ht_hash_table) (hinv : Slot.deleted ∉ ht.items)
    (h : ht_insert cfg fuel ht key value = .ok ht1) : Slot.deleted ∉ ht1.items := by
  refine ht_insert_preserves_from_zero cfg (fun t => Slot.deleted ∉ t.items) ?_ ?_
    fuel ht key value ht1 hinv h
  · intro b _
    simp [ht_new_sized, List.mem_replicate]
  · intro f t k v t1 hp hs
    obtain ⟨a, s0, _, _, _, _, hitems, _⟩ := ht_insert_probe_ok cfg k v f t t1 0 hs
    intro hmem
    rw [hitems] at hmem
    rcases List.mem_or_eq_of_mem_set hmem with h1 | h1
    · exact hp h1
    · cases h1

/-! ### The keys of a table -/

/-- For a key of non-negative characters the probe index is a remainder of
natural numbers. -/
theorem ht_get_hash_nat (cfg : Config) (hp1 : 0 ≤ cfg.HT_PRIME_1) (hp2 : 0 ≤ cfg.HT_PRIME_2)
    (key : CStr) (hkey : ∀ c ∈ key, 0 ≤ c) (m : Int) (hm : 0 < m) (i : Nat) :
    ht_get_hash cfg key m i =
      (((ht_hash key cfg.HT_PRIME_1 m).toNat
        + i * (ht_hash key cfg.HT_PRIME_2 m + 1).toNat) % m.toNat : Nat) := by
  obtain ⟨ha0, _⟩ := ht_hash_range key cfg.HT_PRIME_1 m hkey hp1 hm
  obtain ⟨hb0, _⟩ := ht_hash_range key cfg.HT_PRIME_2 m hkey hp2 hm
  have hmm : ((m.toNat : Nat) : Int) = m := Int.toNat_of_nonneg (le_of_lt hm)
  rw [(ht_get_hash_range cfg key m i hkey hp1 hp2 hm).1]
  have e1 : ht_hash key cfg.HT_PRIME_1 m = ((ht_hash key cfg.HT_PRIME_1 m).toNat : Int) :=
    (Int.toNat_of_nonneg ha0).symm
  have e2 : ht_hash key cfg.HT_PRIME_2 m + 1
      = ((ht_hash key cfg.HT_PRIME_2 m + 1).toNat : Int) :=
    (Int.toNat_of_nonneg (by omega)).symm
  rw [Int.natCast_mod, hmm]
  push_cast
  rw [← e1, ← e2]

/-- For a prime table size and a key of non-negative characters: if the second
hash is not `m - 1`, the indices of the attempts `0..m-1` are pairwise
distinct, reach every slot, and repeat with period `m`; if the second hash is
`m - 1`, every attempt gives the first hash. -/
theorem probe_sequence_of_nonneg_key (cfg : Config) (hp1 : 0 ≤ cfg.HT_PRIME_1)
    (hp2 : 0 ≤ cfg.HT_PRIME_2) (key : CStr) (hkey : ∀ c ∈ key, 0 ≤ c) (m : Int)
    (hm : Nat.Prime m.toNat) :
    (ht_hash key cfg.HT_PRIME_2 m ≠ m - 1 →
        (∀ i j : Nat, i < m.toNat → j < m.toNat →
          ht_get_hash cfg key m i = ht_get_hash cfg key m j → i = j) ∧
        (∀ x : Int, 0 ≤ x → x < m → ∃ i : Nat, i < m.toNat ∧ ht_get_hash cfg key m i = x) ∧
        (∀ i : Nat, ht_get_hash cfg key m ((i + m.toNat : Nat) : Int)
          = ht_get_hash cfg key m i)) ∧
      (ht_hash key cfg.HT_PRIME_2 m = m - 1 →
        ∀ i : Nat, ht_get_hash cfg key m i = ht_hash key cfg.HT_PRIME_1 m) := by
  have hmpos : 0 < m := by
    have := hm.pos
    omega
  have hmm : ((m.toNat : Nat) : Int) = m := Int.toNat_of_nonneg (le_of_lt hmpos)
  obtain ⟨ha0, ha1⟩ := ht_hash_range key cfg.HT_PRIME_1 m hkey hp1 hmpos
  obtain ⟨hb0, hb1⟩ := ht_hash_range key cfg.HT_PRIME_2 m hkey hp2 hmpos
  have hidx := ht_get_hash_nat cfg hp1 hp2 key hkey m hmpos
  constructor
  · intro hne
    have hs0 : 0 < (ht_hash key cfg.HT_PRIME_2 m + 1).toNat := by omega
    have hsm : (ht_hash key cfg.HT_PRIME_2 m + 1).toNat < m.toNat := by omega
    have hcop : Nat.Coprime m.toNat (ht_hash key cfg.HT_PRIME_2 m + 1).toNat :=
      Nat.coprime_of_lt_prime hs0 hsm hm
    refine ⟨?_, ?_, ?_⟩
    · intro i j hi hj hij
      rw [hidx i, hidx j] at hij
      have h1 : (ht_hash key cfg.HT_PRIME_1 m).toNat
            + i * (ht_hash key cfg.HT_PRIME_2 m + 1).toNat
          ≡ (ht_hash key cfg.HT_PRIME_1 m).toNat
            + j * (ht_hash key cfg.HT_PRIME_2 m + 1).toNat [MOD m.toNat] := by
        exact_mod_cast hij
      have h2 := Nat.ModEq.add_left_cancel' _ h1
      have h3 : i ≡ j [MOD m.toNat] := Nat.ModEq.cancel_right_of_coprime hcop h2
      unfold Nat.ModEq at h3
      rwa [Nat.mod_eq_of_lt hi, Nat.mod_eq_of_lt hj] at h3
    · intro x hx0 hx1
      obtain ⟨i, hi, hij⟩ := probe_reaches m.toNat (ht_hash key cfg.HT_PRIME_1 m).toNat
        (ht_hash key cfg.HT_PRIME_2 m + 1).toNat x.toNat hm hs0 hsm (by omega)
      exact ⟨i, hi, by rw [hidx i, hij]; omega⟩
    · intro i
      rw [hidx (i + m.toNat), hidx i, Nat.add_mul, ← Nat.add_assoc, Nat.add_mul_mod_self_left]
  · intro heq i
    rw [hidx i]
    have hs : (ht_hash key cfg.HT_PRIME_2 m + 1).toNat = m.toNat := by omega
    rw [hs, Nat.add_mul_mod_self_right, Nat.mod_eq_of_lt (by omega)]
    omega

/-- After `ht_resize` to a base size at or above the floor, the table has no
tombstone and `count` is its number of items. -/
theorem resize_drops_tombstones (cfg : Config) (fuel : Nat) (ht ht1 : ht_hash_table)
    (b : Int) (hb : cfg.HT_INITIAL_BASE_SIZE ≤ b) (h : ht_resize cfg fuel ht b = .ok ht1) :
    Slot.deleted ∉ ht1.items ∧ ht1.count = (occupied ht1.items : Int) := by
  rcases ht_resize_body_ok cfg _ ht ht1 _ h with ⟨hlow, _⟩ | ⟨_, h2⟩
  · omega
  · have hp := ht_resize_loop_preserves _
      (fun t => Slot.deleted ∉ t.items ∧ InsertInv cfg t)
      (fun t k v t1 hpt hi =>
        ⟨no_tombstone_insert cfg fuel t k v t1 hpt.1 hi,
          insert_inv_insert cfg fuel t k v t1 hpt.2 hi⟩)
      ht.items (ht_new_sized b) ht1
      ⟨by simp [ht_new_sized, List.mem_replicate], insert_inv_new_sized cfg b hb⟩ h2
    exact ⟨hp.1, hp.2.2.2⟩

end HashTable
